import Mathlib

/-!
# Guest-memory accessors and address-space switch

A shallow embedding of

* `xen/include/asm-x86/uaccess.h`: the scalar accessors `get_user`, `put_user`,
  `__get_guest`, `__put_guest`, their size dispatch, and the block copy
  `__copy_from_guest_pv`;
* `linux-2.4.29-xen-sparse/include/asm-xen/mmu_context.h`: `switch_mm`.

Addresses, bytes and machine words are natural numbers.  Multi-byte values are
little endian, as on x86.  A guest access faults when one of the bytes it
touches lacks the permission the access needs; the exception-table fixup of the
inline assembly is the `else` branch of the corresponding definition.  The
destination of a read is the register operand `x` of the `asm`, of the width of
the caller's variable; an instruction writes the sub-register its suffix names.
-/

namespace Xen

/-! ## Memory -/

/-- Guest address space as the accessors see it: per-byte read and write
permission (an access to a byte without the permission faults) and contents. -/
structure GuestMem where
  readable : Nat → Bool
  writable : Nat → Bool
  byte : Nat → Nat

/-- Hypervisor memory: always accessible bytes. -/
abbrev HypMem := Nat → Nat

/-- Every byte of `[addr, addr + size)` carries the permission `perm`. -/
def range_ok (perm : Nat → Bool) (addr : Nat) : Nat → Bool
  | 0 => true
  | size + 1 => perm addr && range_ok perm (addr + 1) size

/-- Little-endian value of the `size` bytes at `addr`. -/
def load_le (byte : Nat → Nat) (addr : Nat) : Nat → Nat
  | 0 => 0
  | size + 1 => byte addr % 256 + 256 * load_le byte (addr + 1) size

/-- Memory after the low `size` bytes of `v` are stored at `addr`, little endian. -/
def store_le (byte : Nat → Nat) (addr : Nat) (v : Nat) : Nat → (Nat → Nat)
  | 0 => byte
  | size + 1 => store_le (Function.update byte addr (v % 256)) (addr + 1) (v / 256) size

/-- Memory after `size` zero bytes are written at `addr`. -/
def zero_fill (byte : Nat → Nat) (addr : Nat) : Nat → (Nat → Nat)
  | 0 => byte
  | size + 1 => zero_fill (Function.update byte addr 0) (addr + 1) size

/-! ## Scalar accessors (`uaccess.h`) -/

/-- The two link-time traps of the size dispatch. -/
inductive SizeError where
  | get_bad
  | put_bad
  deriving DecidableEq, Repr

/-- Modelled from the spec: `__get_user_bad` is declared in `uaccess.h` and
defined nowhere; a scalar access of a size outside {1,2,4,8} "must fail loudly"
and is "rejected in a way that is detectable before or during a build", so the
call does not return. -/
def __get_user_bad : Except SizeError Unit := .error .get_bad

/-- Modelled from the spec: `__put_user_bad` is declared in `uaccess.h` and
defined nowhere; see `__get_user_bad`. -/
def __put_user_bad : Except SizeError Unit := .error .put_bad

/-- `put_unsafe_asm(x, addr, err, itype, rtype, ltype, errret)`: one `mov` of
the operand width (`size` bytes, selected by `itype`) from `x` to `addr`.
If the store faults the fixup sets `err` to `errret`; otherwise `err` keeps its
value.  Result: `err` and guest memory. -/
def put_unsafe_asm {ρ : Type} (m : GuestMem) (x addr : Nat) (err : ρ) (size : Nat)
    (errret : ρ) : ρ × GuestMem :=
  if range_ok m.writable addr size then
    (err, { m with byte := store_le m.byte addr x size })
  else
    (errret, m)

/-- The register operand of `xsize` bytes that held `reg`, after an instruction
of `size` bytes has written `v` to its sub-register (`%b1`, `%w1`, `%k1` or
`%1`, chosen by `rtype`): an 8- or 16-bit write keeps the other bits of the
register, a 32-bit write clears bits 32 to 63, a 64-bit write replaces the
register.  The operand is then read at its own width. -/
def write_subreg (reg xsize size v : Nat) : Nat :=
  let written :=
    if size = 1 ∨ size = 2 then reg / 2 ^ (8 * size) * 2 ^ (8 * size) + v % 2 ^ (8 * size)
    else v % 2 ^ (8 * size)
  written % 2 ^ (8 * xsize)

/-- `get_unsafe_asm(x, addr, err, itype, rtype, ltype, errret)`: one `mov` of
`size` bytes (`itype`) from `addr` to the `size`-byte sub-register (`rtype`) of
the operand `x`.  If the load faults the fixup sets `err` to `errret` and
`xor`s that sub-register with itself.  `x` is the value of the variable, which
its register holds, before the `asm`, and `xsize` is `sizeof(x)`.
Result: `err` and `x`. -/
def get_unsafe_asm {ρ : Type} (m : GuestMem) (x xsize addr : Nat) (err : ρ) (size : Nat)
    (errret : ρ) : ρ × Nat :=
  if range_ok m.readable addr size then
    (err, write_subreg x xsize size (load_le m.byte addr size))
  else
    (errret, write_subreg x xsize size 0)

/-- `put_unsafe_size(x, ptr, size, retval, errret)` (also `put_guest_size`).
Result: `retval` and guest memory. -/
def put_unsafe_size {ρ : Type} [Zero ρ] (m : GuestMem) (x ptr size : Nat) (errret : ρ) :
    Except SizeError (ρ × GuestMem) :=
  let retval : ρ := 0
  match size with
  | 1 => pure (put_unsafe_asm m x ptr retval 1 errret)
  | 2 => pure (put_unsafe_asm m x ptr retval 2 errret)
  | 4 => pure (put_unsafe_asm m x ptr retval 4 errret)
  | 8 => pure (put_unsafe_asm m x ptr retval 8 errret)
  | _ => do
    __put_user_bad
    pure (retval, m)

/-- `get_unsafe_size(x, ptr, size, retval, errret)` (also `get_guest_size`);
`xsize` is `sizeof(x)`.  Result: `retval` and `x`. -/
def get_unsafe_size {ρ : Type} [Zero ρ] (m : GuestMem) (x xsize ptr size : Nat)
    (errret : ρ) : Except SizeError (ρ × Nat) :=
  let retval : ρ := 0
  match size with
  | 1 => pure (get_unsafe_asm m x xsize ptr retval 1 errret)
  | 2 => pure (get_unsafe_asm m x xsize ptr retval 2 errret)
  | 4 => pure (get_unsafe_asm m x xsize ptr retval 4 errret)
  | 8 => pure (get_unsafe_asm m x xsize ptr retval 8 errret)
  | _ => do
    __get_user_bad
    pure (retval, x)

/-- `put_guest_nocheck(x, ptr, size)`; `EFAULT` comes from `xen/errno.h`. -/
def put_guest_nocheck (EFAULT : Int) (m : GuestMem) (x ptr size : Nat) :
    Except SizeError (Int × GuestMem) :=
  put_unsafe_size m x ptr size (-EFAULT)

/-- `__put_user_check(x, ptr, size)`; `access_ok` comes from
`asm/x86_64/uaccess.h`. -/
def __put_user_check (access_ok : Nat → Nat → Bool) (EFAULT : Int) (m : GuestMem)
    (x ptr size : Nat) : Except SizeError (Int × GuestMem) :=
  if access_ok ptr size then put_guest_nocheck EFAULT m x ptr size
  else pure (-EFAULT, m)

/-- `get_guest_nocheck(x, ptr, size)`; `xsize` is `sizeof(x)`. -/
def get_guest_nocheck (EFAULT : Int) (m : GuestMem) (x xsize ptr size : Nat) :
    Except SizeError (Int × Nat) :=
  get_unsafe_size m x xsize ptr size (-EFAULT)

/-- `__get_user_check(x, ptr, size)`; `xsize` is `sizeof(x)`. -/
def __get_user_check (access_ok : Nat → Nat → Bool) (EFAULT : Int) (m : GuestMem)
    (x xsize ptr size : Nat) : Except SizeError (Int × Nat) :=
  if access_ok ptr size then get_guest_nocheck EFAULT m x xsize ptr size
  else pure (-EFAULT, x)

/-- `get_user(x, ptr)`; `size` is `sizeof(*(ptr))` and `xsize` is `sizeof(x)`. -/
def get_user (access_ok : Nat → Nat → Bool) (EFAULT : Int) (m : GuestMem)
    (x xsize ptr size : Nat) : Except SizeError (Int × Nat) :=
  __get_user_check access_ok EFAULT m x xsize ptr size

/-- `put_user(x, ptr)`; `size` is `sizeof(*(ptr))` and the value is cast to the
pointed-to type first. -/
def put_user (access_ok : Nat → Nat → Bool) (EFAULT : Int) (m : GuestMem)
    (x ptr size : Nat) : Except SizeError (Int × GuestMem) :=
  __put_user_check access_ok EFAULT m (x % 2 ^ (8 * size)) ptr size

/-- `__get_guest(x, ptr)`; `size` is `sizeof(*(ptr))` and `xsize` is `sizeof(x)`. -/
def __get_guest (EFAULT : Int) (m : GuestMem) (x xsize ptr size : Nat) :
    Except SizeError (Int × Nat) :=
  get_guest_nocheck EFAULT m x xsize ptr size

/-- `__put_guest(x, ptr)`. -/
def __put_guest (EFAULT : Int) (m : GuestMem) (x ptr size : Nat) :
    Except SizeError (Int × GuestMem) :=
  put_guest_nocheck EFAULT m (x % 2 ^ (8 * size)) ptr size

/-! ## Block copy (`uaccess.h`) -/

/-- Modelled from the spec: `__copy_from_user_ll` is declared in `uaccess.h`
(`unsigned __copy_from_user_ll(void *to, const void __user *from, unsigned n)`)
and defined outside the sources at hand.  The spec: "perform a byte/word-granular
loop that stops at the first faulting unit.  Return value is the number of
bytes that could not be transferred", and "any bytes that could not be read
must be zero-filled in the destination up to the originally requested length".
Result: the return value and hypervisor memory. -/
def __copy_from_user_ll (g : GuestMem) (h : HypMem) (to_ from_ : Nat) : Nat → Nat × HypMem
  | 0 => (0, h)
  | n + 1 =>
    if g.readable from_ then
      __copy_from_user_ll g (Function.update h to_ (g.byte from_ % 256)) (to_ + 1) (from_ + 1) n
    else
      (n + 1, zero_fill h to_ (n + 1))

/-- `__copy_from_guest_pv(to, from, n)`.  `constant_p` is
`__builtin_constant_p(n)`.  The scalar cases read into the lvalue
`*(uintN_t *)to`, an operand of the size read, with `errret` equal to the size; every other call goes to
`__copy_from_user_ll`, whose count parameter is an `unsigned` (32 bits).
Result: the return value and hypervisor memory. -/
def __copy_from_guest_pv (constant_p : Bool) (g : GuestMem) (h : HypMem)
    (to_ from_ n : Nat) : Except SizeError (Nat × HypMem) :=
  let ll : Except SizeError (Nat × HypMem) :=
    pure (__copy_from_user_ll g h to_ from_ (n % 2 ^ 32))
  if constant_p then
    match n with
    | 1 => do
      let (ret, x) ← get_unsafe_size g (load_le h to_ 1) 1 from_ 1 (1 : Nat)
      pure (ret, store_le h to_ x 1)
    | 2 => do
      let (ret, x) ← get_unsafe_size g (load_le h to_ 2) 2 from_ 2 (2 : Nat)
      pure (ret, store_le h to_ x 2)
    | 4 => do
      let (ret, x) ← get_unsafe_size g (load_le h to_ 4) 4 from_ 4 (4 : Nat)
      pure (ret, store_le h to_ x 4)
    | 8 => do
      let (ret, x) ← get_unsafe_size g (load_le h to_ 8) 8 from_ 8 (8 : Nat)
      pure (ret, store_le h to_ x 8)
    | _ => ll
  else ll

/-! ## Address-space switch (`mmu_context.h`) -/

/-- The part of `mm_context_t` that `switch_mm` reads.  `size` holds the bit
pattern of the C integer field. -/
structure mm_context_t where
  size : Nat

/-- The fields of `struct mm_struct` that `switch_mm` touches. -/
structure mm_struct where
  pgd : Nat
  cpu_vm_mask : Nat
  context : mm_context_t

/-- Calls that leave `switch_mm`: `xen_pt_switch(pa)` and
`load_LDT(&mm->context)`, the latter identified by the address of `mm`. -/
inductive Call where
  | xen_pt_switch (pa : Nat)
  | load_LDT (mm : Nat)
  deriving DecidableEq, Repr

/-- What `switch_mm` can read and write: the `mm_struct` objects by address,
the global `cur_pgd`, and the calls issued so far, oldest first. -/
structure Machine where
  mm : Nat → mm_struct
  cur_pgd : Nat
  calls : List Call

/-- Modelled from the spec: `clear_bit` comes from `asm/bitops.h`, outside the
sources at hand; on the CPU-membership bitmask it must "remove `processorId`
from `prev`'s CPU-membership set", that is `mask & ~(1 << nr)`. -/
def clear_bit (nr : Nat) (mask : Nat) : Nat :=
  Nat.ldiff mask (1 <<< nr)

/-- `switch_mm(prev, next, tsk, cpu)`.  `prev` and `next` are addresses of
`mm_struct`s, `w` is the width in bits of the integer type of `context.size`
(declared in `asm/mmu.h`), whose addition wraps, and `__pa` is the
virtual-to-physical translation macro. -/
def switch_mm (w : Nat) (__pa : Nat → Nat) (s : Machine) (prev next : Nat) (_tsk : Nat)
    (cpu : Nat) : Machine :=
  if prev ≠ next then
    -- clear_bit(cpu, &prev->cpu_vm_mask);
    let prev_mm : mm_struct :=
      { s.mm prev with cpu_vm_mask := clear_bit cpu (s.mm prev).cpu_vm_mask }
    let s1 : Machine := { s with mm := Function.update s.mm prev prev_mm }
    -- cur_pgd = next->pgd;
    let s2 : Machine := { s1 with cur_pgd := (s1.mm next).pgd }
    -- xen_pt_switch(__pa(cur_pgd));
    let s3 : Machine := { s2 with calls := s2.calls ++ [Call.xen_pt_switch (__pa s2.cur_pgd)] }
    -- if (next->context.size+prev->context.size) load_LDT(&next->context);
    if ((s3.mm next).context.size + (s3.mm prev).context.size) % 2 ^ w ≠ 0 then
      { s3 with calls := s3.calls ++ [Call.load_LDT next] }
    else
      s3
  else
    s

/-- `activate_mm(prev, next)`: `switch_mm` with a null task and the calling
processor's identifier. -/
def activate_mm (w : Nat) (__pa : Nat → Nat) (smp_processor_id : Nat) (s : Machine)
    (prev next : Nat) : Machine :=
  switch_mm w __pa s prev next 0 smp_processor_id

/-- The calls issued between state `s` and the later state `s'`. -/
def calls_since (s s' : Machine) : List Call :=
  s'.calls.drop s.calls.length

end Xen

namespace Xen

/-! ## Concrete inputs -/

/-- A guest address space in which only byte 0 can be read, every byte can be
written, and byte `a` holds `a + 7`. -/
def ex_guest : GuestMem :=
  { readable := fun a => decide (a < 1), writable := fun _ => true, byte := fun a => a + 7 }

/-- Hypervisor memory filled with the byte 9. -/
def ex_hyp : HypMem := fun _ => 9

/-- An `access_ok` that rejects every range. -/
def ex_deny : Nat → Nat → Bool := fun _ _ => false

/-- A machine whose `mm_struct` at address `a` has page directory `16 * a` and
CPU mask `0b111`; `context.size` is `0xFFFFFFFF` (the 32-bit pattern of `-1`) at
address 1, 1 at address 2, 3 at address 5 and 0 elsewhere. -/
def ex_machine : Machine :=
  { mm := fun a =>
      { pgd := 16 * a, cpu_vm_mask := 7,
        context := { size := if a = 1 then 4294967295 else if a = 2 then 1
                             else if a = 5 then 3 else 0 } },
    cur_pgd := 0,
    calls := [] }

end Xen

namespace Xen

/-! ## Facts about the memory primitives -/

theorem range_ok_iff (perm : Nat → Bool) (addr size : Nat) :
    range_ok perm addr size = true ↔ ∀ i, i < size → perm (addr + i) = true := by
  induction size generalizing addr with
  | zero => simp [range_ok]
  | succ n ih =>
    simp only [range_ok, Bool.and_eq_true, ih]
    constructor
    · rintro ⟨h0, hrest⟩ i hi
      cases i with
      | zero => simpa using h0
      | succ j =>
        have := hrest j (by omega)
        rwa [show addr + (j + 1) = addr + 1 + j by omega]
    · intro hall
      refine ⟨by simpa using hall 0 (by omega), fun i hi => ?_⟩
      have := hall (i + 1) (by omega)
      rwa [show addr + (i + 1) = addr + 1 + i by omega] at this

theorem range_ok_false_of (perm : Nat → Bool) (addr size k : Nat) (hk : k < size)
    (hbad : perm (addr + k) = false) : range_ok perm addr size = false := by
  cases h : range_ok perm addr size with
  | false => rfl
  | true =>
    have := (range_ok_iff perm addr size).1 h k hk
    rw [hbad] at this
    exact absurd this (by decide)

theorem store_le_below (byte : Nat → Nat) (addr v size b : Nat) (hb : b < addr) :
    store_le byte addr v size b = byte b := by
  induction size generalizing byte addr v with
  | zero => rfl
  | succ n ih =>
    simp only [store_le]
    rw [ih _ _ _ (by omega), Function.update_noteq (by omega)]

theorem load_le_store_le (byte : Nat → Nat) (addr v size : Nat) :
    load_le (store_le byte addr v size) addr size = v % 256 ^ size := by
  induction size generalizing byte addr v with
  | zero => simp [load_le, Nat.mod_one]
  | succ n ih =>
    simp only [load_le, store_le]
    rw [ih, store_le_below _ _ _ _ _ (by omega), Function.update_same, Nat.mod_mod,
      pow_succ', Nat.mod_mul]

theorem store_le_zero (byte : Nat → Nat) (addr size i : Nat) (hi : i < size) :
    store_le byte addr 0 size (addr + i) = 0 := by
  induction size generalizing byte addr i with
  | zero => omega
  | succ n ih =>
    simp only [store_le, Nat.zero_mod, Nat.zero_div]
    cases i with
    | zero => rw [store_le_below _ _ _ _ _ (by omega), Nat.add_zero, Function.update_same]
    | succ j =>
      rw [show addr + (j + 1) = addr + 1 + j by omega]
      exact ih _ _ _ (by omega)

theorem zero_fill_apply (byte : Nat → Nat) (addr size b : Nat) :
    zero_fill byte addr size b = if addr ≤ b ∧ b < addr + size then 0 else byte b := by
  induction size generalizing byte addr with
  | zero => rw [zero_fill, if_neg (by omega)]
  | succ n ih =>
    simp only [zero_fill]
    rw [ih]
    by_cases h1 : addr + 1 ≤ b ∧ b < addr + 1 + n
    · rw [if_pos h1, if_pos (by omega)]
    · rw [if_neg h1]
      by_cases h2 : b = addr
      · subst h2
        rw [Function.update_same, if_pos (by omega)]
      · rw [Function.update_noteq h2, if_neg (by omega)]

/-- The byte loop modelled for `__copy_from_user_ll`: with the first `k` source
bytes readable and byte `k` not, it returns `n - k`, copies `k` bytes, zeroes
the rest of the destination and leaves everything else alone. -/
theorem copy_from_user_ll_partial (g : GuestMem) (h : HypMem) (to_ from_ n k : Nat)
    (hk : k < n) (hread : ∀ i, i < k → g.readable (from_ + i) = true)
    (hstop : g.readable (from_ + k) = false) :
    (__copy_from_user_ll g h to_ from_ n).1 = n - k ∧
    ∀ b, (__copy_from_user_ll g h to_ from_ n).2 b =
      if to_ ≤ b ∧ b < to_ + k then g.byte (from_ + (b - to_)) % 256
      else if to_ + k ≤ b ∧ b < to_ + n then 0 else h b := by
  induction n generalizing h to_ from_ k with
  | zero => omega
  | succ n ih =>
    cases k with
    | zero =>
      have h0 : g.readable from_ = false := by simpa using hstop
      simp only [__copy_from_user_ll, h0, Bool.false_eq_true, if_false, Nat.sub_zero, true_and]
      intro b
      rw [zero_fill_apply]
      split_ifs <;> first | rfl | omega
    | succ j =>
      have h0 : g.readable from_ = true := by simpa using hread 0 (by omega)
      simp only [__copy_from_user_ll, h0, if_true]
      have hread1 : ∀ i, i < j → g.readable (from_ + 1 + i) = true := fun i hi => by
        have := hread (i + 1) (by omega)
        rwa [show from_ + (i + 1) = from_ + 1 + i by omega] at this
      have hstop1 : g.readable (from_ + 1 + j) = false := by
        rwa [show from_ + (j + 1) = from_ + 1 + j by omega] at hstop
      obtain ⟨hret, hmem⟩ := ih (Function.update h to_ (g.byte from_ % 256)) (to_ + 1)
        (from_ + 1) j (by omega) hread1 hstop1
      refine ⟨by rw [hret]; omega, fun b => ?_⟩
      rw [hmem b]
      by_cases hb : b = to_
      · subst hb
        rw [if_neg (by omega), if_neg (by omega), Function.update_same, if_pos (by omega),
          Nat.sub_self, Nat.add_zero]
      · rw [Function.update_noteq hb]
        split_ifs with h1 h2 h3 h4 h5 h6 <;>
          first
          | rfl
          | omega
          | rw [show from_ + 1 + (b - (to_ + 1)) = from_ + (b - to_) by omega]

theorem load_le_lt (byte : Nat → Nat) (addr size : Nat) :
    load_le byte addr size < 2 ^ (8 * size) := by
  induction size generalizing addr with
  | zero => simp [load_le]
  | succ n ih =>
    have h1 := ih (addr + 1)
    have h2 : byte addr % 256 < 256 := Nat.mod_lt _ (by norm_num)
    have h3 : 2 ^ (8 * (n + 1)) = 256 * 2 ^ (8 * n) := by
      rw [show 8 * (n + 1) = 8 + 8 * n by ring, pow_add]; norm_num
    simp only [load_le]
    rw [h3]
    nlinarith

theorem write_subreg_same (reg size v : Nat) :
    write_subreg reg size size v = v % 2 ^ (8 * size) := by
  unfold write_subreg
  split
  · rw [Nat.add_comm, Nat.add_mul_mod_self_right, Nat.mod_mod]
  · rw [Nat.mod_mod]

/-- When the operand `x` has the width of the access the whole of `x` is
written: the loaded value, or zero after a fault. -/
theorem get_unsafe_asm_same_width {ρ : Type} (m : GuestMem) (x addr : Nat) (err : ρ)
    (size : Nat) (errret : ρ) :
    get_unsafe_asm m x size addr err size errret =
      if range_ok m.readable addr size = true then (err, load_le m.byte addr size)
      else (errret, 0) := by
  unfold get_unsafe_asm
  rw [write_subreg_same, write_subreg_same, Nat.mod_eq_of_lt (load_le_lt _ _ _), Nat.zero_mod]

theorem copy_from_guest_pv_scalar (g : GuestMem) (h : HypMem) (to_ from_ n : Nat)
    (hn : n = 1 ∨ n = 2 ∨ n = 4 ∨ n = 8) :
    __copy_from_guest_pv true g h to_ from_ n =
      .ok (if range_ok g.readable from_ n = true then (0, store_le h to_ (load_le g.byte from_ n) n)
           else (n, store_le h to_ 0 n)) := by
  rcases hn with hn | hn | hn | hn <;> subst hn <;>
    simp only [__copy_from_guest_pv, get_unsafe_size, get_unsafe_asm_same_width, pure,
      Except.pure, bind, Except.bind, if_true] <;>
    split <;> rfl

theorem copy_from_guest_pv_general (constant_p : Bool) (g : GuestMem) (h : HypMem)
    (to_ from_ n : Nat) (hn : ¬(constant_p = true ∧ (n = 1 ∨ n = 2 ∨ n = 4 ∨ n = 8))) :
    __copy_from_guest_pv constant_p g h to_ from_ n =
      .ok (__copy_from_user_ll g h to_ from_ (n % 2 ^ 32)) := by
  unfold __copy_from_guest_pv
  cases constant_p with
  | false => rfl
  | true =>
    simp only [if_true]
    split <;> first | rfl | exact absurd ⟨rfl, by simp⟩ hn

theorem testBit_clear_bit (nr mask i : Nat) :
    (clear_bit nr mask).testBit i = (mask.testBit i && !decide (nr = i)) := by
  rw [clear_bit, Nat.testBit_ldiff, Nat.one_shiftLeft, Nat.testBit_two_pow]

theorem switch_mm_self (w : Nat) (__pa : Nat → Nat) (s : Machine) (a tsk cpu : Nat) :
    switch_mm w __pa s a a tsk cpu = s := by
  simp [switch_mm]

theorem switch_mm_mm (w : Nat) (__pa : Nat → Nat) (s : Machine) (prev next tsk cpu : Nat)
    (hne : prev ≠ next) :
    (switch_mm w __pa s prev next tsk cpu).mm =
      Function.update s.mm prev
        { pgd := (s.mm prev).pgd,
          cpu_vm_mask := clear_bit cpu (s.mm prev).cpu_vm_mask,
          context := (s.mm prev).context } := by
  unfold switch_mm
  simp only [hne, ne_eq, not_false_eq_true, if_true]
  split <;> rfl

theorem switch_mm_cur_pgd (w : Nat) (__pa : Nat → Nat) (s : Machine) (prev next tsk cpu : Nat)
    (hne : prev ≠ next) :
    (switch_mm w __pa s prev next tsk cpu).cur_pgd = (s.mm next).pgd := by
  unfold switch_mm
  simp only [hne, ne_eq, not_false_eq_true, if_true]
  split <;> simp [Function.update_noteq (Ne.symm hne)]

theorem switch_mm_calls (w : Nat) (__pa : Nat → Nat) (s : Machine) (prev next tsk cpu : Nat)
    (hne : prev ≠ next) :
    calls_since s (switch_mm w __pa s prev next tsk cpu) =
      Call.xen_pt_switch (__pa (s.mm next).pgd) ::
        (if ((s.mm next).context.size + (s.mm prev).context.size) % 2 ^ w ≠ 0
         then [Call.load_LDT next] else []) := by
  unfold switch_mm calls_since
  simp only [hne, ne_eq, not_false_eq_true, if_true, Function.update_same,
    Function.update_noteq (Ne.symm hne)]
  split <;> simp

theorem wrapped_sum_ne_zero_iff (M a b : Nat) (ha : a < M) (hb : b < M) (hab : a + b ≠ M) :
    (a + b) % M ≠ 0 ↔ (b ≠ 0 ∨ a ≠ 0) := by
  by_cases hlt : a + b < M
  · rw [Nat.mod_eq_of_lt hlt]; omega
  · rw [Nat.mod_eq_sub_mod (by omega), Nat.mod_eq_of_lt (by omega)]; omega

/-! ## Scalar accessors -/

/-- C1: when `access_ok(p, s)` is false, `__get_user_check` (`get_user`) and
`__put_user_check` (`put_user`) return `-EFAULT` without any transfer: the
read leaves `x` as it was and the write leaves guest memory as it was. -/
theorem checked_access_denied (access_ok : Nat → Nat → Bool) (EFAULT : Int) (m : GuestMem)
    (x xsize v p s : Nat) (hdeny : access_ok p s = false) :
    __get_user_check access_ok EFAULT m x xsize p s = .ok (-EFAULT, x) ∧
    __put_user_check access_ok EFAULT m v p s = .ok (-EFAULT, m) ∧
    get_user access_ok EFAULT m x xsize p s = .ok (-EFAULT, x) ∧
    put_user access_ok EFAULT m v p s = .ok (-EFAULT, m) := by
  simp [get_user, put_user, __get_user_check, __put_user_check, hdeny, pure, Except.pure]

/-- The denied accesses at a concrete input: `x = 5`, a 4-byte access at address 0. -/
theorem checked_access_denied_witness :
    ex_deny 0 4 = false ∧
    (__get_user_check ex_deny 14 ex_guest 5 4 0 4 = .ok (-14, 5) ∧
     __put_user_check ex_deny 14 ex_guest 6 0 4 = .ok (-14, ex_guest) ∧
     get_user ex_deny 14 ex_guest 5 4 0 4 = .ok (-14, 5) ∧
     put_user ex_deny 14 ex_guest 6 0 4 = .ok (-14, ex_guest)) :=
  ⟨rfl, checked_access_denied ex_deny 14 ex_guest 5 4 6 0 4 rfl⟩

/-- C2 (the code at the failing input): with `access_ok` false and `x = 5`,
`get_user` returns the error `-EFAULT = -14` and `x` is still 5, not zero. -/
theorem get_user_denied_keeps_x :
    get_user ex_deny 14 ex_guest 5 4 0 4 = .ok (-14, 5) ∧ (-14 : Int) ≠ 0 ∧ (5 : Nat) ≠ 0 := by
  refine ⟨rfl, by decide, by decide⟩

/-- When `x` has the width of `*ptr` (`sizeof(x) == s`, `s` in {1,2,4,8}),
`get_guest_nocheck(x, a, s)` returns 0 with `x` the `s`-byte value at `a` when
the load does not fault, and `-EFAULT` with `x` zero when it faults. -/
theorem get_guest_nocheck_same_width (EFAULT : Int) (m : GuestMem) (x a s : Nat)
    (hs : s = 1 ∨ s = 2 ∨ s = 4 ∨ s = 8) :
    get_guest_nocheck EFAULT m x s a s =
      .ok (if range_ok m.readable a s = true then ((0 : Int), load_le m.byte a s)
           else (-EFAULT, 0)) := by
  rcases hs with h | h | h | h <;> subst h <;>
    simp only [get_guest_nocheck, get_unsafe_size, get_unsafe_asm_same_width, pure,
      Except.pure]

/-- When `x` has the width of `*ptr`, `put_user(v, a)` followed by
`get_user(x, a)` on a range that passes `access_ok` and does not fault returns
0 twice and leaves `x = v`. -/
theorem put_user_get_user_same_width (access_ok : Nat → Nat → Bool) (EFAULT : Int)
    (m : GuestMem) (x v a s : Nat) (hs : s = 1 ∨ s = 2 ∨ s = 4 ∨ s = 8)
    (hv : v < 2 ^ (8 * s)) (hok : access_ok a s = true)
    (hw : range_ok m.writable a s = true) (hr : range_ok m.readable a s = true) :
    put_user access_ok EFAULT m v a s = .ok (0, { m with byte := store_le m.byte a v s }) ∧
    get_user access_ok EFAULT { m with byte := store_le m.byte a v s } x s a s =
      .ok (0, v) := by
  have hv' : v % 256 ^ s = v := by
    apply Nat.mod_eq_of_lt
    rwa [show (256 : Nat) = 2 ^ 8 by norm_num, ← pow_mul]
  have hload : load_le (store_le m.byte a v s) a s = v := by rw [load_le_store_le, hv']
  constructor
  · unfold put_user
    rw [Nat.mod_eq_of_lt hv]
    rcases hs with h | h | h | h <;> subst h <;>
      simp [__put_user_check, hok, put_guest_nocheck, put_unsafe_size,
        put_unsafe_asm, hw, pure, Except.pure]
  · unfold get_user __get_user_check
    rw [if_pos hok, get_guest_nocheck_same_width EFAULT _ x a s hs, if_pos hr, hload]

/-- C9: for a size outside {1,2,4,8} the dispatch of `get_unsafe_size` and of
`put_unsafe_size` reaches no `mov`; it takes the default branch, the call of
`__get_user_bad` / `__put_user_bad`, and so never completes with a result, in
particular not with `retval = 0`. -/
theorem unsafe_size_rejected {ρ : Type} [Zero ρ] (m : GuestMem) (x xsize ptr s : Nat)
    (errret : ρ) (hs : s ≠ 1 ∧ s ≠ 2 ∧ s ≠ 4 ∧ s ≠ 8) :
    get_unsafe_size m x xsize ptr s errret = .error SizeError.get_bad ∧
    put_unsafe_size m x ptr s errret = .error SizeError.put_bad ∧
    (∀ r, get_unsafe_size m x xsize ptr s errret ≠ .ok r) ∧
    (∀ r, put_unsafe_size m x ptr s errret ≠ .ok r) := by
  obtain ⟨h1, h2, h4, h8⟩ := hs
  have hg : get_unsafe_size m x xsize ptr s errret = .error SizeError.get_bad := by
    unfold get_unsafe_size
    split <;> first | contradiction | rfl
  have hp : put_unsafe_size m x ptr s errret = .error SizeError.put_bad := by
    unfold put_unsafe_size
    split <;> first | contradiction | rfl
  refine ⟨hg, hp, fun r => ?_, fun r => ?_⟩
  · rw [hg]; exact fun h => by cases h
  · rw [hp]; exact fun h => by cases h

/-- A 3-byte scalar access is rejected. -/
theorem unsafe_size_rejected_witness :
    ((3 : Nat) ≠ 1 ∧ (3 : Nat) ≠ 2 ∧ (3 : Nat) ≠ 4 ∧ (3 : Nat) ≠ 8) ∧
    (get_unsafe_size ex_guest 5 4 0 3 (-14 : Int) = .error SizeError.get_bad ∧
    put_unsafe_size ex_guest 5 0 3 (-14 : Int) = .error SizeError.put_bad ∧
    (∀ r, get_unsafe_size ex_guest 5 4 0 3 (-14 : Int) ≠ .ok r) ∧
    (∀ r, put_unsafe_size ex_guest 5 0 3 (-14 : Int) ≠ .ok r)) :=
  ⟨by decide, unsafe_size_rejected ex_guest 5 4 0 3 (-14 : Int) (by decide)⟩

/-! ## Block copy -/

/-- C5 (counterexample): with `n = 2` a compile-time constant and exactly the
first `k = 1` source byte readable, `__copy_from_guest_pv` returns 2, not
`n - k = 1`, and `dst[0]` is 0, not the source byte 7. -/
theorem copy_from_guest_pv_scalar_counterexample :
    (1 < 2 ∧ ∀ i, i < 2 → (ex_guest.readable (0 + i) = true ↔ i < 1)) ∧
    (∃ h', __copy_from_guest_pv true ex_guest ex_hyp 100 0 2 = .ok (2, h') ∧
      h' (100 + 0) = 0) ∧
    (2 : Nat) ≠ 2 - 1 ∧ ex_guest.byte (0 + 0) % 256 = 7 := by
  refine ⟨⟨by decide, by decide⟩, ⟨store_le ex_hyp 100 0 2, rfl, by decide⟩, by decide, by decide⟩

/-- C5 (amended): let `k < n < 2^32` and let exactly the first `k` source bytes
be readable.  When `n` is a compile-time constant equal to 1, 2, 4 or 8,
`__copy_from_guest_pv(dst, src, n)` returns `n` and `dst[0..n)` is all zero.
Otherwise it returns `n - k`, `dst[0..k)` holds the first `k` source bytes and
`dst[k..n)` is all zero. -/
theorem copy_from_guest_pv_partial (constant_p : Bool) (g : GuestMem) (h : HypMem)
    (to_ from_ n k : Nat) (hk : k < n) (hn : n < 2 ^ 32)
    (hacc : ∀ i, i < n → (g.readable (from_ + i) = true ↔ i < k)) :
    ∃ ret h', __copy_from_guest_pv constant_p g h to_ from_ n = .ok (ret, h') ∧
      if constant_p = true ∧ (n = 1 ∨ n = 2 ∨ n = 4 ∨ n = 8) then
        ret = n ∧ ∀ i, i < n → h' (to_ + i) = 0
      else
        ret = n - k ∧ (∀ i, i < k → h' (to_ + i) = g.byte (from_ + i) % 256) ∧
          ∀ i, k ≤ i → i < n → h' (to_ + i) = 0 := by
  have hstop : g.readable (from_ + k) = false := by
    cases hb : g.readable (from_ + k) with
    | false => rfl
    | true => exact absurd ((hacc k hk).1 hb) (by omega)
  by_cases hc : constant_p = true ∧ (n = 1 ∨ n = 2 ∨ n = 4 ∨ n = 8)
  · obtain ⟨hp, hsz⟩ := hc
    subst hp
    refine ⟨n, store_le h to_ 0 n, ?_, ?_⟩
    · rw [copy_from_guest_pv_scalar g h to_ from_ n hsz,
        range_ok_false_of g.readable from_ n k hk hstop]
      rfl
    · rw [if_pos ⟨rfl, hsz⟩]
      exact ⟨rfl, fun i hi => store_le_zero h to_ n i hi⟩
  · obtain ⟨hret, hmem⟩ := copy_from_user_ll_partial g h to_ from_ n k hk
      (fun i hi => (hacc i (by omega)).2 hi) hstop
    refine ⟨(__copy_from_user_ll g h to_ from_ n).1, (__copy_from_user_ll g h to_ from_ n).2,
      ?_, ?_⟩
    · rw [copy_from_guest_pv_general constant_p g h to_ from_ n hc, Nat.mod_eq_of_lt hn]
    · rw [if_neg hc]
      refine ⟨hret, fun i hi => ?_, fun i hki hin => ?_⟩
      · rw [hmem, if_pos (by omega), Nat.add_sub_cancel_left]
      · rw [hmem, if_neg (by omega), if_pos (by omega)]

/-- A 3-byte copy, not a scalar case, from `ex_guest` with one readable byte. -/
theorem copy_from_guest_pv_partial_witness :
    (1 < 3 ∧ 3 < 2 ^ 32 ∧ ∀ i, i < 3 → (ex_guest.readable (0 + i) = true ↔ i < 1)) ∧
    ∃ ret h', __copy_from_guest_pv false ex_guest ex_hyp 100 0 3 = .ok (ret, h') ∧
      if false = true ∧ ((3 : Nat) = 1 ∨ (3 : Nat) = 2 ∨ (3 : Nat) = 4 ∨ (3 : Nat) = 8) then
        ret = 3 ∧ ∀ i, i < 3 → h' (100 + i) = 0
      else
        ret = 3 - 1 ∧ (∀ i, i < 1 → h' (100 + i) = ex_guest.byte (0 + i) % 256) ∧
          ∀ i, 1 ≤ i → i < 3 → h' (100 + i) = 0 :=
  ⟨⟨by decide, by decide, by decide⟩,
    copy_from_guest_pv_partial false ex_guest ex_hyp 100 0 3 1 (by decide) (by decide)
      (by decide)⟩

/-! ## Address-space switch -/

/-- C6 (counterexample): with 32-bit sizes `prev->context.size = 0xFFFFFFFF`
(the `int` -1) and `next->context.size = 1`, both non-zero, the sum wraps to 0
and `switch_mm` does not call `load_LDT`. -/
theorem switch_mm_load_LDT_counterexample :
    (1 : Nat) ≠ 2 ∧
    (ex_machine.mm 1).context.size = 4294967295 ∧ (ex_machine.mm 2).context.size = 1 ∧
    ((ex_machine.mm 1).context.size ≠ 0 ∨ (ex_machine.mm 2).context.size ≠ 0) ∧
    Call.load_LDT 2 ∉ calls_since ex_machine (switch_mm 32 id ex_machine 1 2 0 0) := by
  decide

/-- C6 (amended): for distinct `prev` and `next` whose `context.size` values
(`w`-bit patterns) do not add up to exactly `2^w`, that is unless
`next->context.size == -prev->context.size != 0`, `switch_mm` calls
`load_LDT(&next->context)` if and only if at least one of the two sizes is
non-zero. -/
theorem switch_mm_load_LDT_iff (w : Nat) (__pa : Nat → Nat) (s : Machine)
    (prev next tsk cpu : Nat) (hne : prev ≠ next)
    (hprev : (s.mm prev).context.size < 2 ^ w) (hnext : (s.mm next).context.size < 2 ^ w)
    (hsum : (s.mm next).context.size + (s.mm prev).context.size ≠ 2 ^ w) :
    Call.load_LDT next ∈ calls_since s (switch_mm w __pa s prev next tsk cpu) ↔
      ((s.mm prev).context.size ≠ 0 ∨ (s.mm next).context.size ≠ 0) := by
  rw [switch_mm_calls w __pa s prev next tsk cpu hne,
    ← wrapped_sum_ne_zero_iff (2 ^ w) _ _ hnext hprev hsum]
  by_cases hz : ((s.mm next).context.size + (s.mm prev).context.size) % 2 ^ w ≠ 0
  · simp [hz]
  · simp [hz]

/-- Switching from the context at 5 (size 3) to the one at 2 (size 1). -/
theorem switch_mm_load_LDT_iff_witness :
    ((5 : Nat) ≠ 2 ∧ (ex_machine.mm 5).context.size < 2 ^ 32 ∧
      (ex_machine.mm 2).context.size < 2 ^ 32 ∧
      (ex_machine.mm 2).context.size + (ex_machine.mm 5).context.size ≠ 2 ^ 32) ∧
    (Call.load_LDT 2 ∈ calls_since ex_machine (switch_mm 32 id ex_machine 5 2 0 1) ↔
      ((ex_machine.mm 5).context.size ≠ 0 ∨ (ex_machine.mm 2).context.size ≠ 0)) :=
  ⟨⟨by decide, by decide, by decide, by decide⟩,
    switch_mm_load_LDT_iff 32 id ex_machine 5 2 0 1 (by decide) (by decide) (by decide)
      (by decide)⟩

/-- C7: `switch_mm(A, A, tsk, cpu)` changes nothing, whatever `A`'s
`context.size` is: every `mm_struct` (so `A`'s `cpu_vm_mask`) and `cur_pgd` are
as before and no call (`xen_pt_switch`, `load_LDT`) is issued. -/
theorem switch_mm_same_noop (w : Nat) (__pa : Nat → Nat) (s : Machine) (a tsk cpu : Nat) :
    switch_mm w __pa s a a tsk cpu = s ∧
    ((switch_mm w __pa s a a tsk cpu).mm a).cpu_vm_mask = (s.mm a).cpu_vm_mask ∧
    (switch_mm w __pa s a a tsk cpu).cur_pgd = s.cur_pgd ∧
    calls_since s (switch_mm w __pa s a a tsk cpu) = [] := by
  rw [switch_mm_self]
  simp [calls_since]

/-- C8: for distinct `A` and `B` with `context.size == 0` on both sides,
`switch_mm(A, B, tsk, cpu)` issues exactly `xen_pt_switch(__pa(B->pgd))` and no
`load_LDT`, leaves bit `cpu` of `A`'s `cpu_vm_mask` clear, and sets `cur_pgd`
to `B`'s `pgd`. -/
theorem switch_mm_default_ldt (w : Nat) (__pa : Nat → Nat) (s : Machine) (a b tsk cpu : Nat)
    (hne : a ≠ b) (ha : (s.mm a).context.size = 0) (hb : (s.mm b).context.size = 0) :
    calls_since s (switch_mm w __pa s a b tsk cpu) = [Call.xen_pt_switch (__pa (s.mm b).pgd)] ∧
    (∀ c, Call.load_LDT c ∉ calls_since s (switch_mm w __pa s a b tsk cpu)) ∧
    ((switch_mm w __pa s a b tsk cpu).mm a).cpu_vm_mask.testBit cpu = false ∧
    (switch_mm w __pa s a b tsk cpu).cur_pgd = (s.mm b).pgd := by
  have hcalls : calls_since s (switch_mm w __pa s a b tsk cpu) =
      [Call.xen_pt_switch (__pa (s.mm b).pgd)] := by
    rw [switch_mm_calls w __pa s a b tsk cpu hne, ha, hb]
    simp
  refine ⟨hcalls, fun c => ?_, ?_, switch_mm_cur_pgd w __pa s a b tsk cpu hne⟩
  · rw [hcalls]; simp
  · rw [switch_mm_mm w __pa s a b tsk cpu hne, Function.update_same]
    simp [testBit_clear_bit]

/-- Switching between the contexts at 3 and 4, both of size 0, on processor 1. -/
theorem switch_mm_default_ldt_witness :
    ((3 : Nat) ≠ 4 ∧ (ex_machine.mm 3).context.size = 0 ∧ (ex_machine.mm 4).context.size = 0) ∧
    (calls_since ex_machine (switch_mm 32 id ex_machine 3 4 0 1) =
      [Call.xen_pt_switch (id (ex_machine.mm 4).pgd)] ∧
    (∀ c, Call.load_LDT c ∉ calls_since ex_machine (switch_mm 32 id ex_machine 3 4 0 1)) ∧
    ((switch_mm 32 id ex_machine 3 4 0 1).mm 3).cpu_vm_mask.testBit 1 = false ∧
    (switch_mm 32 id ex_machine 3 4 0 1).cur_pgd = (ex_machine.mm 4).pgd) :=
  ⟨⟨by decide, by decide, by decide⟩,
    switch_mm_default_ldt 32 id ex_machine 3 4 0 1 (by decide) (by decide) (by decide)⟩

/-- C10: the only CPU-membership change of `switch_mm(prev, next, tsk, cpu)` is
that bit `cpu` of `prev`'s `cpu_vm_mask` is cleared when `prev != next`; every
other bit of that mask keeps its value, every `mm_struct` other than `prev`'s
is untouched, `next`'s `cpu_vm_mask` is as before (bit `cpu` is not set in
it), and `pgd` and `context` of `prev` and of `next` are as before. -/
theorem switch_mm_membership_frame (w : Nat) (__pa : Nat → Nat) (s : Machine)
    (prev next tsk cpu : Nat) :
    (∀ i, ((switch_mm w __pa s prev next tsk cpu).mm prev).cpu_vm_mask.testBit i =
      if prev ≠ next ∧ i = cpu then false else (s.mm prev).cpu_vm_mask.testBit i) ∧
    (∀ p, p ≠ prev → (switch_mm w __pa s prev next tsk cpu).mm p = s.mm p) ∧
    ((switch_mm w __pa s prev next tsk cpu).mm prev).pgd = (s.mm prev).pgd ∧
    ((switch_mm w __pa s prev next tsk cpu).mm prev).context = (s.mm prev).context ∧
    ((switch_mm w __pa s prev next tsk cpu).mm next).pgd = (s.mm next).pgd ∧
    ((switch_mm w __pa s prev next tsk cpu).mm next).context = (s.mm next).context ∧
    ((switch_mm w __pa s prev next tsk cpu).mm next).cpu_vm_mask = (s.mm next).cpu_vm_mask := by
  by_cases hne : prev = next
  · subst hne
    rw [switch_mm_self]
    simp
  · have hmm := switch_mm_mm w __pa s prev next tsk cpu hne
    have hnext : (switch_mm w __pa s prev next tsk cpu).mm next = s.mm next := by
      rw [hmm, Function.update_noteq (Ne.symm hne)]
    refine ⟨fun i => ?_, fun p hp => ?_, ?_, ?_, ?_, ?_, ?_⟩
    · rw [hmm, Function.update_same]
      simp only [testBit_clear_bit]
      by_cases hi : i = cpu
      · subst hi; simp [hne]
      · have : ¬ cpu = i := fun h => hi h.symm
        simp [hi, this]
    · rw [hmm, Function.update_noteq hp]
    · rw [hmm, Function.update_same]
    · rw [hmm, Function.update_same]
    · rw [hnext]
    · rw [hnext]
    · rw [hnext]

end Xen
